import Mathlib

/-!
Formal model of the Rate Limiter subsystem of the repository
(`low-level-design/Rate Limiter/rate-limiter.py`).

Python floats (times and durations) are modelled as rationals (`ℚ`) and
Python integers as `ℤ`.  Each `is_allowed` call takes the clock reading
`now` as an explicit argument (the shallow embedding of `time.time()`),
so a trace of calls is a list of `(user_id, now)` pairs; a non-decreasing
clock is the `List.Chain' (· ≤ ·)` hypothesis on the list of readings.
Python's `int(elapsed // interval)` on floats is floor division, embedded
as `Int.floor` on `ℚ`.
-/

/-- Per-key token bucket state: the dict `{"tokens": _, "last_refill": _}`
stored in `TokenBucketRateLimiter.buckets`. -/
structure Bucket where
  tokens : ℤ
  last_refill : ℚ
deriving DecidableEq

/-- `TokenBucketRateLimiter.__init__`: the configuration together with the
per-user bucket dict (empty at construction). -/
structure TokenBucketRateLimiter where
  capacity : ℤ
  refill_interval : ℚ
  buckets : String → Option Bucket

/-- A `TokenBucketRateLimiter` as `__init__` leaves it (`self.buckets = {}`). -/
def tokenBucketInit (capacity : ℤ) (refill_interval : ℚ) : TokenBucketRateLimiter :=
  ⟨capacity, refill_interval, fun _ => none⟩

/-- The bucket for `user` after the fetch-or-create and refill steps of
`TokenBucketRateLimiter.is_allowed` at clock reading `now` (lines 20-33 of
the source): a missing bucket is created as `{tokens: capacity,
last_refill: now}`; then `tokens_to_add = int((now - last_refill) //
refill_interval)` and, if positive, `tokens = min(capacity, tokens +
tokens_to_add)` and `last_refill = now`. -/
def tbRefilled (l : TokenBucketRateLimiter) (user : String) (now : ℚ) : Bucket :=
  let b0 : Bucket := (l.buckets user).getD ⟨l.capacity, now⟩
  let tokens_to_add : ℤ := ⌊(now - b0.last_refill) / l.refill_interval⌋
  if 0 < tokens_to_add then ⟨min l.capacity (b0.tokens + tokens_to_add), now⟩ else b0

/-- `TokenBucketRateLimiter.is_allowed`: refill bookkeeping, then admit and
consume one token iff `tokens > 0`.  Returns the decision together with the
updated limiter (the mutated `self`). -/
def TokenBucketRateLimiter.is_allowed (l : TokenBucketRateLimiter) (user : String) (now : ℚ) :
    Bool × TokenBucketRateLimiter :=
  let b1 := tbRefilled l user now
  (decide (0 < b1.tokens),
    { l with
      buckets := fun u =>
        if u = user then some (if 0 < b1.tokens then ⟨b1.tokens - 1, b1.last_refill⟩ else b1)
        else l.buckets u })

/-- Run a trace of `(user_id, now)` calls through a token bucket limiter. -/
def tbRun (l : TokenBucketRateLimiter) : List (String × ℚ) → TokenBucketRateLimiter
  | [] => l
  | c :: rest => tbRun (l.is_allowed c.1 c.2).2 rest

/-- The list of decisions produced along a trace. -/
def tbResults (l : TokenBucketRateLimiter) : List (String × ℚ) → List Bool
  | [] => []
  | c :: rest => (l.is_allowed c.1 c.2).1 :: tbResults (l.is_allowed c.1 c.2).2 rest

/-- The `(user_id, now)` pairs of the calls that were admitted along a trace. -/
def tbAdmits (l : TokenBucketRateLimiter) : List (String × ℚ) → List (String × ℚ)
  | [] => []
  | c :: rest =>
    (if (l.is_allowed c.1 c.2).1 then [c] else []) ++ tbAdmits (l.is_allowed c.1 c.2).2 rest

/-- `SlidingWindowRateLimiter.__init__`: the configuration together with the
per-user timestamp lists (empty at construction). -/
structure SlidingWindowRateLimiter where
  max_requests : ℤ
  window : ℚ
  requests : String → List ℚ

/-- A `SlidingWindowRateLimiter` as `__init__` leaves it (`self.requests = {}`). -/
def slidingWindowInit (max_requests : ℤ) (window : ℚ) : SlidingWindowRateLimiter :=
  ⟨max_requests, window, fun _ => []⟩

/-- The pruned timestamp list of `user` at clock reading `now`: the list
comprehension `[ts for ts in self.requests[user_id] if now - ts < self.window]`
(a missing entry is first created as `[]`). -/
def swPruned (l : SlidingWindowRateLimiter) (user : String) (now : ℚ) : List ℚ :=
  (l.requests user).filter fun ts => decide (now - ts < l.window)

/-- `SlidingWindowRateLimiter.is_allowed`: prune, then admit and record `now`
iff fewer than `max_requests` timestamps remain. -/
def SlidingWindowRateLimiter.is_allowed (l : SlidingWindowRateLimiter) (user : String) (now : ℚ) :
    Bool × SlidingWindowRateLimiter :=
  let pruned := swPruned l user now
  if (pruned.length : ℤ) < l.max_requests then
    (true, { l with requests := fun u => if u = user then pruned ++ [now] else l.requests u })
  else
    (false, { l with requests := fun u => if u = user then pruned else l.requests u })

/-- Run a trace of `(user_id, now)` calls through a sliding window limiter. -/
def swRun (l : SlidingWindowRateLimiter) : List (String × ℚ) → SlidingWindowRateLimiter
  | [] => l
  | c :: rest => swRun (l.is_allowed c.1 c.2).2 rest

/-- The list of decisions produced along a trace. -/
def swResults (l : SlidingWindowRateLimiter) : List (String × ℚ) → List Bool
  | [] => []
  | c :: rest => (l.is_allowed c.1 c.2).1 :: swResults (l.is_allowed c.1 c.2).2 rest

/-- The `(user_id, now)` pairs of the calls that were admitted along a trace. -/
def swAdmits (l : SlidingWindowRateLimiter) : List (String × ℚ) → List (String × ℚ)
  | [] => []
  | c :: rest =>
    (if (l.is_allowed c.1 c.2).1 then [c] else []) ++ swAdmits (l.is_allowed c.1 c.2).2 rest

/-- The two concrete limiter classes, as produced by the factory. -/
inductive RateLimiter where
  | tokenBucket (l : TokenBucketRateLimiter)
  | slidingWindow (l : SlidingWindowRateLimiter)

/-- `RateLimiterFactory.create`: dispatch on `limiter_type`; any other name
raises `ValueError("Unknown rate limiter algorithm.")`, embedded as
`Except.error`.  The two numeric keyword arguments (`capacity`/`max_requests`
and `refill_interval`/`window`, with their defaults already applied) are
passed explicitly. -/
def RateLimiterFactory.create (limiter_type : String) (intParam : ℤ) (durParam : ℚ) :
    Except String RateLimiter :=
  if limiter_type = "token_bucket" then
    Except.ok (RateLimiter.tokenBucket (tokenBucketInit intParam durParam))
  else if limiter_type = "sliding_window" then
    Except.ok (RateLimiter.slidingWindow (slidingWindowInit intParam durParam))
  else Except.error "Unknown rate limiter algorithm."

/-- Number of admitted calls for key `k` whose clock reading lies in the
closed interval `[lo, hi]`. -/
def countAdmitsIn (k : String) (lo hi : ℚ) (admits : List (String × ℚ)) : ℕ :=
  admits.countP fun c => decide (c.1 = k ∧ lo ≤ c.2 ∧ c.2 ≤ hi)

/-- Number of admitted calls for key `k` whose clock reading lies in the
half-open interval `(lo, hi]` (a trailing window: pruning ages an entry out
as soon as `now - ts ≥ window`, so windows are open at their left end). -/
def countAdmitsInOC (k : String) (lo hi : ℚ) (admits : List (String × ℚ)) : ℕ :=
  admits.countP fun c => decide (c.1 = k ∧ lo < c.2 ∧ c.2 ≤ hi)

/-- Proof invariant for the sliding-window bound (C4), tracked for one key
over a run: `stored` is that key's current timestamp list, `A` the number of
admits for the key so far whose time lies in the window `(a, a + W]`, and `τ`
an upper bound on all clock readings seen so far.  Either every window admit
is still represented by a stored timestamp `> a`, or the clock has passed the
window end and `A` is already bounded by `M`. -/
def SWInv (M : ℤ) (W a : ℚ) (stored : List ℚ) (A : ℕ) (τ : ℚ) : Prop :=
  (stored.length : ℤ) ≤ M ∧
  ((A ≤ stored.countP fun ts => decide (a < ts)) ∨ (a + W < τ ∧ (A : ℤ) ≤ M))

/-- Proof invariant for the token-bucket window bound (C1, amended), tracked
for one key over a run.  `σ` is the key's bucket (if created), `A` the
number of admits for the key so far whose time lies in `[a, b]`
(`b = a + capacity * refill_interval`), and `τ` an upper bound on all clock
readings seen so far.  Before the bucket's `last_refill` enters the window
(`last_refill < a`) the window admits all come out of the stored tokens; once
`last_refill ∈ [a, b]` there is an anchor time `m > a - R` from which every
token minted inside the window can be charged to a disjoint elapsed interval
of length `R`; once the clock passes `b` the count is frozen. -/
def TBInv (C : ℤ) (R a b : ℚ) (σ : Option Bucket) (A : ℕ) (τ : ℚ) : Prop :=
  (1 ≤ A → a ≤ τ) ∧ (A : ℤ) ≤ 2 * C ∧
  (match σ with
   | none => A = 0
   | some bu =>
     (bu.last_refill < a ∧ 0 ≤ bu.tokens ∧ bu.tokens ≤ C ∧ bu.last_refill ≤ τ ∧
       (A : ℤ) + bu.tokens ≤ C ∧ (1 ≤ A → a < bu.last_refill + R))
     ∨ (a ≤ bu.last_refill ∧ bu.last_refill ≤ b ∧ 0 ≤ bu.tokens ∧ bu.tokens ≤ C ∧
       bu.last_refill ≤ τ ∧
       ∃ m : ℚ, a - R < m ∧ m ≤ bu.last_refill ∧
         (A : ℤ) + bu.tokens ≤ C + ⌊(bu.last_refill - m) / R⌋)
     ∨ b < τ)

/-- C5: refill determinism.  With `capacity = 3`, `refill_interval = 20`, a key
that exhausts its three tokens at `t = 0` is denied at `t = 19`, admitted at
`t = 20`, and denied on a second call at `t = 20` (exactly one admit there). -/
theorem tb_refill_determinism : tbResults (tokenBucketInit 3 20)
    [("u", 0), ("u", 0), ("u", 0), ("u", 19), ("u", 20), ("u", 20)] =
    [true, true, true, false, true, false] := by
  norm_num [tbResults, TokenBucketRateLimiter.is_allowed, tbRefilled, tokenBucketInit]

/-- C6: sliding exactness.  With `max_requests = 5`, `window = 60`, five calls
at `t = 0` all admit, a sixth at `t = 30` denies, and a seventh at `t = 61`
admits (the timestamps recorded at `t = 0` have aged out of the window). -/
theorem sw_sliding_exactness : swResults (slidingWindowInit 5 60)
    [("u", 0), ("u", 0), ("u", 0), ("u", 0), ("u", 0), ("u", 30), ("u", 61)] =
    [true, true, true, true, true, false, true] := by
  norm_num [swResults, SlidingWindowRateLimiter.is_allowed, swPruned, slidingWindowInit,
    List.filter]

/-- C1, counterexample.  A token bucket with `capacity = 3` and
`refill_interval = 20` admits five calls at clock readings `0, 0, 0, 20, 40`;
all five lie inside a single trailing window of length
`capacity * refill_interval = 60` (whether the window is read as the closed
interval `[0, 60]` or as the half-open trailing interval `(-20, 40]`), so the
claimed bound of at most `capacity = 3` admitted calls per such window is
false. -/
theorem tb_bucket_bound_counterexample :
    3 < countAdmitsIn "u" 0 60
        (tbAdmits (tokenBucketInit 3 20) [("u", 0), ("u", 0), ("u", 0), ("u", 20), ("u", 40)]) ∧
    3 < countAdmitsInOC "u" (-20) 40
        (tbAdmits (tokenBucketInit 3 20) [("u", 0), ("u", 0), ("u", 0), ("u", 20), ("u", 40)]) := by
  norm_num [countAdmitsIn, countAdmitsInOC, tbAdmits, TokenBucketRateLimiter.is_allowed,
    tbRefilled, tokenBucketInit, List.countP, List.countP.go]

/-- C2, counterexample.  Start a bucket with `capacity = 3`,
`refill_interval = 20` at `t = 0` (one admitted call), then call again at
`t = 25`.  The refill adds `tokensToAdd = ⌊25 / 20⌋ = 1` token, but the code
sets `last_refill` to `now = 25`, not to
`lastRefill + tokensToAdd * refillInterval = 0 + 1 * 20 = 20` as the claim
states: the fractional remainder of elapsed time is discarded. -/
theorem tb_lastRefill_counterexample :
    (tbRun (tokenBucketInit 3 20) [("u", 0), ("u", 25)]).buckets "u" = some ⟨2, 25⟩ ∧
    (25 : ℚ) ≠ 0 + 1 * 20 := by
  constructor
  · norm_num [tbRun, TokenBucketRateLimiter.is_allowed, tbRefilled, tokenBucketInit,
      Bucket.mk.injEq]
  · norm_num

/-- C2, amended.  On an `is_allowed` call where
`tokensToAdd = ⌊(now - lastRefill) / refillInterval⌋ > 0`, the refill step
sets `tokens = min(capacity, tokens + tokensToAdd)` and sets `lastRefill`
to `now` (discarding the fractional remainder of elapsed time toward the
next token, rather than preserving it). -/
theorem tb_refill_updates (l : TokenBucketRateLimiter) (u : String) (now : ℚ) (v : ℤ) (lr : ℚ)
    (hb : l.buckets u = some ⟨v, lr⟩) (hpos : 0 < ⌊(now - lr) / l.refill_interval⌋) :
    tbRefilled l u now = ⟨min l.capacity (v + ⌊(now - lr) / l.refill_interval⌋), now⟩ := by
  simp only [tbRefilled, hb, Option.getD_some, if_pos hpos]

/-- Witness for `tb_refill_updates` at a concrete input: a bucket holding two
tokens with `last_refill = 0`, capacity `3`, interval `20`, refilled at
`now = 25`, becomes `⟨3, 25⟩`. -/
theorem tb_refill_updates_witness :
    tbRefilled ⟨3, 20, fun u => if u = "u" then some ⟨2, 0⟩ else none⟩ "u" 25 = ⟨3, 25⟩ := by
  have h := tb_refill_updates ⟨3, 20, fun u => if u = "u" then some ⟨2, 0⟩ else none⟩ "u" 25 2 0
    (by simp) (by norm_num)
  rw [h]
  norm_num [Bucket.mk.injEq]

/-- C3, counterexample.  `Create("token_bucket", capacity=0, ...)` does not
fail: neither the factory nor `TokenBucketRateLimiter.__init__` validates the
numeric parameters, so construction succeeds and yields a limiter. -/
theorem factory_validation_counterexample :
    RateLimiterFactory.create "token_bucket" 0 20 =
      Except.ok (RateLimiter.tokenBucket (tokenBucketInit 0 20)) := by
  simp [RateLimiterFactory.create]

/-- C3, amended.  Construction performs no numeric validation at all: for
every capacity/maxRequests value and every refillInterval/window value
(positive or not), `RateLimiterFactory.create` succeeds for both known
algorithm names and returns a limiter (only an unknown algorithm name fails
construction).  In particular
`Create("token_bucket", capacity=0, ...)` succeeds. -/
theorem factory_no_numeric_validation (i : ℤ) (d : ℚ) :
    RateLimiterFactory.create "token_bucket" i d =
      Except.ok (RateLimiter.tokenBucket (tokenBucketInit i d)) ∧
    RateLimiterFactory.create "sliding_window" i d =
      Except.ok (RateLimiter.slidingWindow (slidingWindowInit i d)) := by
  constructor <;> simp [RateLimiterFactory.create]

/-- C8: every `limiter_type` other than `"token_bucket"` and
`"sliding_window"` makes `RateLimiterFactory.create` fail with
`ValueError("Unknown rate limiter algorithm.")` (embedded as `Except.error`);
there is no fallback to a default algorithm. -/
theorem factory_unknown_algorithm (t : String) (i : ℤ) (d : ℚ)
    (h1 : t ≠ "token_bucket") (h2 : t ≠ "sliding_window") :
    RateLimiterFactory.create t i d = Except.error "Unknown rate limiter algorithm." := by
  simp [RateLimiterFactory.create, h1, h2]

/-- Witness for `factory_unknown_algorithm` at the concrete name
`"unknown_algo"`. -/
theorem factory_unknown_algorithm_witness :
    RateLimiterFactory.create "unknown_algo" 3 20 =
      Except.error "Unknown rate limiter algorithm." :=
  factory_unknown_algorithm "unknown_algo" 3 20 (by simp) (by simp)

/-- C7: backward clock defensiveness.  If a call observes `now` earlier than
the key's `last_refill`, then `tokensToAdd = ⌊(now - lastRefill)/R⌋` is
negative, so the refill guard `tokens_to_add > 0` rejects it: no tokens are
added, `last_refill` is unchanged, and the decision is exactly what the
pre-jump token count permits (`is_allowed` is a total function: it always
returns a boolean). -/
theorem tb_backward_clock (l : TokenBucketRateLimiter) (u : String) (now : ℚ) (v : ℤ) (lr : ℚ)
    (hR : 0 < l.refill_interval) (hb : l.buckets u = some ⟨v, lr⟩) (hlt : now < lr) :
    (l.is_allowed u now).1 = decide (0 < v) ∧
    (l.is_allowed u now).2.buckets u = some (if 0 < v then ⟨v - 1, lr⟩ else ⟨v, lr⟩) := by
  have hdiv : (now - lr) / l.refill_interval < 0 :=
    div_neg_of_neg_of_pos (by linarith) hR
  have hfl : ⌊(now - lr) / l.refill_interval⌋ < 0 :=
    Int.floor_lt.mpr (by exact_mod_cast hdiv)
  have hrefill : tbRefilled l u now = ⟨v, lr⟩ := by
    simp only [tbRefilled, hb, Option.getD_some]
    rw [if_neg (by omega)]
  constructor
  · simp only [TokenBucketRateLimiter.is_allowed, hrefill]
  · simp [TokenBucketRateLimiter.is_allowed, hrefill]

lemma tb_step_fst (l : TokenBucketRateLimiter) (u : String) (now : ℚ) :
    (l.is_allowed u now).1 = decide (0 < (tbRefilled l u now).tokens) := rfl

lemma tb_step_buckets_self (l : TokenBucketRateLimiter) (u : String) (now : ℚ) :
    (l.is_allowed u now).2.buckets u =
      some (if 0 < (tbRefilled l u now).tokens then
              ⟨(tbRefilled l u now).tokens - 1, (tbRefilled l u now).last_refill⟩
            else tbRefilled l u now) := by
  simp [TokenBucketRateLimiter.is_allowed]

lemma tb_step_buckets_other (l : TokenBucketRateLimiter) (u uQ : String) (now : ℚ)
    (h : uQ ≠ u) : (l.is_allowed u now).2.buckets uQ = l.buckets uQ := by
  simp [TokenBucketRateLimiter.is_allowed, h]

lemma tb_step_capacity (l : TokenBucketRateLimiter) (u : String) (now : ℚ) :
    (l.is_allowed u now).2.capacity = l.capacity := rfl

lemma tb_step_refill_interval (l : TokenBucketRateLimiter) (u : String) (now : ℚ) :
    (l.is_allowed u now).2.refill_interval = l.refill_interval := rfl

lemma tbRun_append (l : TokenBucketRateLimiter) (c1 c2 : List (String × ℚ)) :
    tbRun l (c1 ++ c2) = tbRun (tbRun l c1) c2 := by
  induction c1 generalizing l with
  | nil => rfl
  | cons c rest ih => simp [tbRun, ih]

/-- Witness for `tb_backward_clock`: a bucket holding two tokens with
`last_refill = 100` observed at `now = 50` admits (it had tokens) and keeps
`last_refill = 100` with one token consumed, none added. -/
theorem tb_backward_clock_witness :
    ((⟨3, 20, fun u => if u = "u" then some ⟨2, 100⟩ else none⟩ :
        TokenBucketRateLimiter).is_allowed "u" 50).1 = true ∧
    ((⟨3, 20, fun u => if u = "u" then some ⟨2, 100⟩ else none⟩ :
        TokenBucketRateLimiter).is_allowed "u" 50).2.buckets "u" = some ⟨1, 100⟩ := by
  have h := tb_backward_clock ⟨3, 20, fun u => if u = "u" then some ⟨2, 100⟩ else none⟩ "u" 50 2 100
    (by norm_num) (by simp) (by norm_num)
  refine ⟨h.1.trans (by norm_num), h.2.trans (by norm_num)⟩

lemma tbRefilled_empty (l : TokenBucketRateLimiter) (u : String) (now : ℚ)
    (hC : l.capacity ≤ 0) (h : ∀ uQ b, l.buckets uQ = some b → b.tokens ≤ 0) :
    (tbRefilled l u now).tokens ≤ 0 := by
  unfold tbRefilled
  cases hbu : l.buckets u with
  | none =>
    simp only [hbu, Option.getD_none]
    rw [if_neg (by simp)]
    exact hC
  | some b =>
    simp only [hbu, Option.getD_some]
    split
    · exact le_trans (min_le_left _ _) hC
    · exact h u b hbu

lemma tb_zero_cap_run (l : TokenBucketRateLimiter) (calls : List (String × ℚ))
    (hC : l.capacity ≤ 0) (h : ∀ uQ b, l.buckets uQ = some b → b.tokens ≤ 0) :
    tbResults l calls = List.replicate calls.length false := by
  induction calls generalizing l with
  | nil => rfl
  | cons c rest ih =>
    have hb1 : (tbRefilled l c.1 c.2).tokens ≤ 0 := tbRefilled_empty l c.1 c.2 hC h
    have hres : (l.is_allowed c.1 c.2).1 = false := by
      rw [tb_step_fst]
      simpa using hb1
    have hnext : ∀ uQ b, (l.is_allowed c.1 c.2).2.buckets uQ = some b → b.tokens ≤ 0 := by
      intro uQ b hq
      by_cases huq : uQ = c.1
      · subst huq
        rw [tb_step_buckets_self] at hq
        rw [if_neg (by omega)] at hq
        cases hq
        exact hb1
      · rw [tb_step_buckets_other l c.1 uQ c.2 huq] at hq
        exact h uQ b hq
    have hcap : (l.is_allowed c.1 c.2).2.capacity ≤ 0 := by
      rw [tb_step_capacity]; exact hC
    simp only [tbResults, hres, List.length_cons, List.replicate_succ, List.cons.injEq, true_and]
    exact ih _ hcap hnext

/-- C10: zero-capacity edge case.  A `TokenBucketRateLimiter` with
`capacity = 0` is constructed successfully (through the factory), and every
`is_allowed` call on it, for every key and every sequence of clock readings
(not even required to be monotone), returns `false`. -/
theorem tb_zero_capacity_never_admits (R : ℚ) (calls : List (String × ℚ)) (_hR : 0 < R) :
    RateLimiterFactory.create "token_bucket" 0 R =
      Except.ok (RateLimiter.tokenBucket (tokenBucketInit 0 R)) ∧
    tbResults (tokenBucketInit 0 R) calls = List.replicate calls.length false := by
  refine ⟨by simp [RateLimiterFactory.create], ?_⟩
  exact tb_zero_cap_run _ calls le_rfl (by intro uQ b h; simp [tokenBucketInit] at h)

/-- Witness for `tb_zero_capacity_never_admits` at `R = 20` with a concrete
(non-monotone) three-call trace. -/
theorem tb_zero_capacity_never_admits_witness :
    RateLimiterFactory.create "token_bucket" 0 20 =
      Except.ok (RateLimiter.tokenBucket (tokenBucketInit 0 20)) ∧
    tbResults (tokenBucketInit 0 20) [("u", 0), ("v", 50), ("u", 3)] =
      List.replicate 3 false :=
  tb_zero_capacity_never_admits 20 [("u", 0), ("v", 50), ("u", 3)] (by norm_num)

lemma tbRefilled_ok (l : TokenBucketRateLimiter) (u : String) (τ t : ℚ)
    (hC : 0 ≤ l.capacity) (hτ : τ ≤ t)
    (h : ∀ uQ b, l.buckets uQ = some b →
      0 ≤ b.tokens ∧ b.tokens ≤ l.capacity ∧ b.last_refill ≤ τ) :
    0 ≤ (tbRefilled l u t).tokens ∧ (tbRefilled l u t).tokens ≤ l.capacity ∧
    (tbRefilled l u t).last_refill ≤ t ∧
    (∀ b, l.buckets u = some b → b.last_refill ≤ (tbRefilled l u t).last_refill) := by
  unfold tbRefilled
  cases hbu : l.buckets u with
  | none =>
    simp only [hbu, Option.getD_none]
    rw [if_neg (by simp)]
    exact ⟨hC, le_refl _, le_refl _, by intro b hb; cases hb⟩
  | some b =>
    obtain ⟨h0, hcap, hlr⟩ := h u b hbu
    simp only [hbu, Option.getD_some]
    split
    · refine ⟨le_min hC (by omega), min_le_left _ _, le_refl _, ?_⟩
      intro bQ hbQ
      obtain rfl : b = bQ := Option.some.inj hbQ
      exact le_trans hlr hτ
    · refine ⟨h0, hcap, le_trans hlr hτ, ?_⟩
      intro bQ hbQ
      obtain rfl : b = bQ := Option.some.inj hbQ
      exact le_refl _

lemma tb_step_ok (l : TokenBucketRateLimiter) (u : String) (τ t : ℚ)
    (hC : 0 ≤ l.capacity) (hτ : τ ≤ t)
    (h : ∀ uQ b, l.buckets uQ = some b →
      0 ≤ b.tokens ∧ b.tokens ≤ l.capacity ∧ b.last_refill ≤ τ) :
    (∀ uQ b, (l.is_allowed u t).2.buckets uQ = some b →
      0 ≤ b.tokens ∧ b.tokens ≤ l.capacity ∧ b.last_refill ≤ t) ∧
    (∀ uQ b, l.buckets uQ = some b →
      ∃ bQ, (l.is_allowed u t).2.buckets uQ = some bQ ∧ b.last_refill ≤ bQ.last_refill) := by
  obtain ⟨h0, hcap, hlr, hgrow⟩ := tbRefilled_ok l u τ t hC hτ h
  constructor
  · intro uQ b hq
    by_cases huq : uQ = u
    · subst huq
      rw [tb_step_buckets_self] at hq
      split at hq <;> cases hq
      · exact ⟨by dsimp only; omega, by dsimp only; omega, by dsimp only; exact hlr⟩
      · exact ⟨h0, hcap, hlr⟩
    · rw [tb_step_buckets_other l u uQ t huq] at hq
      obtain ⟨a0, acap, alr⟩ := h uQ b hq
      exact ⟨a0, acap, le_trans alr hτ⟩
  · intro uQ b hq
    by_cases huq : uQ = u
    · subst huq
      rw [tb_step_buckets_self]
      split
      · exact ⟨_, rfl, hgrow b hq⟩
      · exact ⟨_, rfl, hgrow b hq⟩
    · rw [tb_step_buckets_other l u uQ t huq]
      exact ⟨b, hq, le_refl _⟩

lemma tb_run_ok (calls : List (String × ℚ)) (l : TokenBucketRateLimiter) (τ : ℚ)
    (hC : 0 ≤ l.capacity)
    (hchain : List.Chain' (· ≤ ·) (τ :: calls.map Prod.snd))
    (h : ∀ uQ b, l.buckets uQ = some b →
      0 ≤ b.tokens ∧ b.tokens ≤ l.capacity ∧ b.last_refill ≤ τ) :
    (∀ uQ b, (tbRun l calls).buckets uQ = some b →
      0 ≤ b.tokens ∧ b.tokens ≤ l.capacity ∧
      b.last_refill ≤ (calls.map Prod.snd).getLastD τ) ∧
    (∀ uQ b, l.buckets uQ = some b →
      ∃ bQ, (tbRun l calls).buckets uQ = some bQ ∧ b.last_refill ≤ bQ.last_refill) := by
  induction calls generalizing l τ with
  | nil => exact ⟨h, by intro uQ b hq; exact ⟨b, hq, le_refl _⟩⟩
  | cons c rest ih =>
    rw [List.map_cons, List.chain'_cons] at hchain
    obtain ⟨hτc, hchain'⟩ := hchain
    obtain ⟨hstep, hgrow⟩ := tb_step_ok l c.1 τ c.2 hC hτc h
    have hcap' : 0 ≤ (l.is_allowed c.1 c.2).2.capacity := hC
    have hstep' : ∀ uQ b, (l.is_allowed c.1 c.2).2.buckets uQ = some b →
        0 ≤ b.tokens ∧ b.tokens ≤ (l.is_allowed c.1 c.2).2.capacity ∧ b.last_refill ≤ c.2 :=
      hstep
    obtain ⟨ih1, ih2⟩ := ih (l.is_allowed c.1 c.2).2 c.2 hcap' hchain' hstep'
    constructor
    · intro uQ b hq
      rw [List.map_cons, List.getLastD_cons]
      exact ih1 uQ b hq
    · intro uQ b hq
      obtain ⟨b1, hb1, hg1⟩ := hgrow uQ b hq
      obtain ⟨b2, hb2, hg2⟩ := ih2 uQ b1 hb1
      exact ⟨b2, hb2, le_trans hg1 hg2⟩

lemma chain_cons_headD {l : List ℚ} (h : List.Chain' (· ≤ ·) l) :
    List.Chain' (· ≤ ·) (l.headD 0 :: l) := by
  cases l with
  | nil => simp
  | cons a t => exact List.chain'_cons.mpr ⟨le_refl a, h⟩

lemma chain_getLastD {l1 l2 : List ℚ} {τ : ℚ}
    (h : List.Chain' (· ≤ ·) (τ :: l1 ++ l2)) :
    List.Chain' (· ≤ ·) (l1.getLastD τ :: l2) := by
  induction l1 generalizing τ with
  | nil => simpa using h
  | cons a t ih =>
    rw [List.getLastD_cons]
    exact ih (List.Chain'.tail h)

lemma chain_take_left {l1 l2 : List ℚ} {τ : ℚ}
    (h : List.Chain' (· ≤ ·) (τ :: l1 ++ l2)) :
    List.Chain' (· ≤ ·) (τ :: l1) := by
  induction l1 generalizing τ with
  | nil => simp
  | cons a t ih =>
    have h' : List.Chain' (· ≤ ·) (τ :: a :: (t ++ l2)) := h
    exact List.chain'_cons.mpr ⟨(List.chain'_cons.mp h').1, ih (List.Chain'.tail h)⟩

lemma tbRun_capacity (calls : List (String × ℚ)) (l : TokenBucketRateLimiter) :
    (tbRun l calls).capacity = l.capacity := by
  induction calls generalizing l with
  | nil => rfl
  | cons c rest ih => rw [tbRun, ih, tb_step_capacity]

/-- C9: token bucket state invariant.  For a freshly constructed
`TokenBucketRateLimiter` with positive capacity and positive refill interval,
running any trace with a non-decreasing clock leaves, for every key that has
a bucket, `0 ≤ tokens ≤ capacity`; and `last_refill` is monotonically
non-decreasing across calls for each key (the bucket after a longer run of
the same trace has a `last_refill` at least that of any earlier point). -/
theorem tb_state_invariant (C : ℤ) (R : ℚ) (calls1 calls2 : List (String × ℚ))
    (hC : 0 < C) (_hR : 0 < R)
    (hmono : List.Chain' (· ≤ ·) ((calls1 ++ calls2).map Prod.snd)) :
    (∀ u b, (tbRun (tokenBucketInit C R) (calls1 ++ calls2)).buckets u = some b →
      0 ≤ b.tokens ∧ b.tokens ≤ C) ∧
    (∀ u b, (tbRun (tokenBucketInit C R) calls1).buckets u = some b →
      ∃ bQ, (tbRun (tokenBucketInit C R) (calls1 ++ calls2)).buckets u = some bQ ∧
        b.last_refill ≤ bQ.last_refill) := by
  set τ0 := (((calls1 ++ calls2).map Prod.snd).headD 0) with hτ0
  have hch : List.Chain' (· ≤ ·) (τ0 :: (calls1 ++ calls2).map Prod.snd) :=
    chain_cons_headD hmono
  rw [List.map_append] at hch
  have hch1 : List.Chain' (· ≤ ·) (τ0 :: calls1.map Prod.snd) := chain_take_left hch
  have hinit : ∀ uQ b, (tokenBucketInit C R).buckets uQ = some b →
      0 ≤ b.tokens ∧ b.tokens ≤ (tokenBucketInit C R).capacity ∧ b.last_refill ≤ τ0 := by
    intro uQ b hb
    simp [tokenBucketInit] at hb
  obtain ⟨h1ok, _⟩ := tb_run_ok calls1 (tokenBucketInit C R) τ0 (le_of_lt hC) hch1 hinit
  have hch2 : List.Chain' (· ≤ ·) ((calls1.map Prod.snd).getLastD τ0 :: calls2.map Prod.snd) :=
    chain_getLastD hch
  have hcapeq : (tbRun (tokenBucketInit C R) calls1).capacity = C := by
    rw [tbRun_capacity]; rfl
  have h1okQ : ∀ uQ b, (tbRun (tokenBucketInit C R) calls1).buckets uQ = some b →
      0 ≤ b.tokens ∧ b.tokens ≤ (tbRun (tokenBucketInit C R) calls1).capacity ∧
      b.last_refill ≤ (calls1.map Prod.snd).getLastD τ0 := by
    intro uQ b hb
    obtain ⟨x, y, z⟩ := h1ok uQ b hb
    exact ⟨x, by rw [hcapeq]; exact y, z⟩
  obtain ⟨h2ok, h2grow⟩ := tb_run_ok calls2 (tbRun (tokenBucketInit C R) calls1)
    ((calls1.map Prod.snd).getLastD τ0) (by rw [hcapeq]; exact le_of_lt hC) hch2 h1okQ
  constructor
  · intro u b hb
    rw [tbRun_append] at hb
    obtain ⟨x, y, _⟩ := h2ok u b hb
    exact ⟨x, by rw [hcapeq] at y; exact y⟩
  · intro u b hb
    obtain ⟨bQ, hbq, hg⟩ := h2grow u b hb
    exact ⟨bQ, by rw [tbRun_append]; exact hbq, hg⟩

/-- Witness for `tb_state_invariant`: a two-call trace for key `"u"`
(`t = 0` then `t = 25`, the second triggering a refill) ends with bucket
`⟨2, 25⟩`, and the invariant instantiates to `0 ≤ 2 ∧ 2 ≤ 3`. -/
theorem tb_state_invariant_witness :
    (tbRun (tokenBucketInit 3 20) ([("u", 0)] ++ [("u", 25)])).buckets "u" = some ⟨2, 25⟩ ∧
    (0 : ℤ) ≤ 2 ∧ (2 : ℤ) ≤ 3 := by
  have hrun : (tbRun (tokenBucketInit 3 20) ([("u", 0)] ++ [("u", 25)])).buckets "u" =
      some ⟨2, 25⟩ := by
    norm_num [tbRun, TokenBucketRateLimiter.is_allowed, tbRefilled, tokenBucketInit,
      Bucket.mk.injEq]
  refine ⟨hrun, ?_⟩
  exact (tb_state_invariant 3 20 [("u", 0)] [("u", 25)] (by norm_num) (by norm_num)
    (by norm_num [List.chain'_cons])).1 "u" ⟨2, 25⟩ hrun

lemma sw_step_fst (l : SlidingWindowRateLimiter) (u : String) (now : ℚ) :
    (l.is_allowed u now).1 = decide (((swPruned l u now).length : ℤ) < l.max_requests) := by
  by_cases h : ((swPruned l u now).length : ℤ) < l.max_requests <;>
    simp [SlidingWindowRateLimiter.is_allowed, h]

lemma sw_step_requests_self (l : SlidingWindowRateLimiter) (u : String) (now : ℚ) :
    (l.is_allowed u now).2.requests u =
      if ((swPruned l u now).length : ℤ) < l.max_requests then swPruned l u now ++ [now]
      else swPruned l u now := by
  by_cases h : ((swPruned l u now).length : ℤ) < l.max_requests <;>
    simp [SlidingWindowRateLimiter.is_allowed, h]

lemma sw_step_requests_other (l : SlidingWindowRateLimiter) (u uQ : String) (now : ℚ)
    (h : uQ ≠ u) : (l.is_allowed u now).2.requests uQ = l.requests uQ := by
  by_cases hc : ((swPruned l u now).length : ℤ) < l.max_requests <;>
    simp [SlidingWindowRateLimiter.is_allowed, hc, h]

lemma sw_step_max (l : SlidingWindowRateLimiter) (u : String) (now : ℚ) :
    (l.is_allowed u now).2.max_requests = l.max_requests := by
  by_cases hc : ((swPruned l u now).length : ℤ) < l.max_requests <;>
    simp [SlidingWindowRateLimiter.is_allowed, hc]

lemma sw_step_window (l : SlidingWindowRateLimiter) (u : String) (now : ℚ) :
    (l.is_allowed u now).2.window = l.window := by
  by_cases hc : ((swPruned l u now).length : ℤ) < l.max_requests <;>
    simp [SlidingWindowRateLimiter.is_allowed, hc]

lemma swPruned_countP (l : SlidingWindowRateLimiter) (u : String) (t a : ℚ)
    (hta : t ≤ a + l.window) :
    ((swPruned l u t).countP fun ts => decide (a < ts)) =
      ((l.requests u).countP fun ts => decide (a < ts)) := by
  unfold swPruned
  rw [List.countP_filter]
  apply List.countP_congr
  intro ts _
  simp only [Bool.and_eq_true, decide_eq_true_eq]
  exact and_iff_left_iff_imp.mpr fun h => by linarith

lemma swInv_le {M : ℤ} {W a : ℚ} {stored : List ℚ} {A : ℕ} {τ : ℚ}
    (hInv : SWInv M W a stored A τ) : (A : ℤ) ≤ M := by
  obtain ⟨hlen, hbr⟩ := hInv
  rcases hbr with h | h
  · have h1 : A ≤ stored.length := le_trans h (List.countP_le_length _)
    calc (A : ℤ) ≤ (stored.length : ℤ) := by exact_mod_cast h1
      _ ≤ M := hlen
  · exact h.2

lemma swInv_mono {M : ℤ} {W a : ℚ} {stored : List ℚ} {A : ℕ} {τ τQ : ℚ}
    (hInv : SWInv M W a stored A τ) (hτ : τ ≤ τQ) : SWInv M W a stored A τQ := by
  obtain ⟨hlen, hbr⟩ := hInv
  refine ⟨hlen, ?_⟩
  rcases hbr with h | h
  · exact Or.inl h
  · exact Or.inr ⟨lt_of_lt_of_le h.1 hτ, h.2⟩


lemma countOC_append (k : String) (lo hi : ℚ) (x y : List (String × ℚ)) :
    countAdmitsInOC k lo hi (x ++ y) = countAdmitsInOC k lo hi x + countAdmitsInOC k lo hi y := by
  unfold countAdmitsInOC
  exact List.countP_append _ x y

lemma swAdmits_cons (l : SlidingWindowRateLimiter) (u : String) (t : ℚ)
    (rest : List (String × ℚ)) :
    swAdmits l ((u, t) :: rest) =
      (if (l.is_allowed u t).1 then [(u, t)] else []) ++ swAdmits (l.is_allowed u t).2 rest := rfl

lemma sw_window_aux (a : ℚ) (k : String) :
    ∀ (calls : List (String × ℚ)) (l : SlidingWindowRateLimiter) (A : ℕ) (τ : ℚ),
      0 ≤ l.max_requests →
      List.Chain' (· ≤ ·) (τ :: calls.map Prod.snd) →
      SWInv l.max_requests l.window a (l.requests k) A τ →
      (A : ℤ) + countAdmitsInOC k a (a + l.window) (swAdmits l calls) ≤ l.max_requests := by
  intro calls
  induction calls with
  | nil =>
    intro l A τ _ _ hInv
    simpa [swAdmits, countAdmitsInOC] using swInv_le hInv
  | cons c rest ih =>
    obtain ⟨u, t⟩ := c
    intro l A τ hM hchain hInv
    simp only [List.map_cons, List.chain'_cons] at hchain
    obtain ⟨hτt, hchain2⟩ := hchain
    rw [swAdmits_cons, countOC_append]
    have hMQ : 0 ≤ (l.is_allowed u t).2.max_requests := by rw [sw_step_max]; exact hM
    by_cases huk : u = k
    · -- the call is for the tracked key
      subst huk
      by_cases hc : ((swPruned l u t).length : ℤ) < l.max_requests
      · -- admitted
        have hres : (l.is_allowed u t).1 = true := by rw [sw_step_fst]; simpa using hc
        have hreq : (l.is_allowed u t).2.requests u = swPruned l u t ++ [t] := by
          rw [sw_step_requests_self, if_pos hc]
        have hlen2 : ((swPruned l u t ++ [t]).length : ℤ) ≤ l.max_requests := by
          rw [List.length_append, List.length_singleton]
          push_cast
          omega
        by_cases ht : t ≤ a + l.window
        · -- still inside (or before the end of) the window
          have hleft : A ≤ ((l.requests u).countP fun ts => decide (a < ts)) := by
            rcases hInv.2 with h | h
            · exact h
            · exact absurd (lt_of_lt_of_le h.1 (le_trans hτt ht)) (lt_irrefl _)
          have hPc : ((swPruned l u t).countP fun ts => decide (a < ts)) =
              ((l.requests u).countP fun ts => decide (a < ts)) :=
            swPruned_countP l u t a ht
          by_cases hat : a < t
          · -- the admit falls in the window (a, a + W]
            have hhead : countAdmitsInOC u a (a + l.window)
                (if (l.is_allowed u t).1 then [(u, t)] else []) = 1 := by
              rw [hres, if_pos rfl]
              simp [countAdmitsInOC, List.countP_cons, hat, ht]
            have hInv2 : SWInv (l.is_allowed u t).2.max_requests
                (l.is_allowed u t).2.window a
                ((l.is_allowed u t).2.requests u) (A + 1) t := by
              rw [sw_step_max, sw_step_window, hreq]
              refine ⟨hlen2, Or.inl ?_⟩
              rw [List.countP_append]
              have h1 : (List.countP (fun ts => decide (a < ts)) [t]) = 1 := by
                simp [List.countP_cons, hat]
              rw [h1, hPc]
              omega
            have hih := ih (l.is_allowed u t).2 (A + 1) t hMQ hchain2 hInv2
            rw [sw_step_max, sw_step_window] at hih
            rw [hhead]
            push_cast at hih ⊢
            omega
          · -- admitted, but at or before the window start: not counted
            have hhead : countAdmitsInOC u a (a + l.window)
                (if (l.is_allowed u t).1 then [(u, t)] else []) = 0 := by
              rw [hres, if_pos rfl]
              simp [countAdmitsInOC, List.countP_cons, hat]
            have hInv2 : SWInv (l.is_allowed u t).2.max_requests
                (l.is_allowed u t).2.window a
                ((l.is_allowed u t).2.requests u) A t := by
              rw [sw_step_max, sw_step_window, hreq]
              refine ⟨hlen2, Or.inl ?_⟩
              rw [List.countP_append, hPc]
              omega
            have hih := ih (l.is_allowed u t).2 A t hMQ hchain2 hInv2
            rw [sw_step_max, sw_step_window] at hih
            rw [hhead]
            push_cast at hih ⊢
            omega
        · -- the call is past the window end: nothing is counted any more
          have hhead : countAdmitsInOC u a (a + l.window)
              (if (l.is_allowed u t).1 then [(u, t)] else []) = 0 := by
            rw [hres, if_pos rfl]
            simp [countAdmitsInOC, List.countP_cons, ht]
          have hInv2 : SWInv (l.is_allowed u t).2.max_requests
              (l.is_allowed u t).2.window a
              ((l.is_allowed u t).2.requests u) A t := by
            rw [sw_step_max, sw_step_window, hreq]
            exact ⟨hlen2, Or.inr ⟨lt_of_not_le ht, swInv_le hInv⟩⟩
          have hih := ih (l.is_allowed u t).2 A t hMQ hchain2 hInv2
          rw [sw_step_max, sw_step_window] at hih
          rw [hhead]
          push_cast at hih ⊢
          omega
      · -- denied
        have hres : (l.is_allowed u t).1 = false := by rw [sw_step_fst]; simpa using hc
        have hreq : (l.is_allowed u t).2.requests u = swPruned l u t := by
          rw [sw_step_requests_self, if_neg hc]
        have hhead : countAdmitsInOC u a (a + l.window)
            (if (l.is_allowed u t).1 then [(u, t)] else []) = 0 := by
          rw [hres]
          simp [countAdmitsInOC]
        have hlen2 : ((swPruned l u t).length : ℤ) ≤ l.max_requests := by
          have h1 : (swPruned l u t).length ≤ (l.requests u).length :=
            List.length_filter_le _ _
          calc ((swPruned l u t).length : ℤ) ≤ ((l.requests u).length : ℤ) := by
                exact_mod_cast h1
            _ ≤ l.max_requests := hInv.1
        have hInv2 : SWInv (l.is_allowed u t).2.max_requests
            (l.is_allowed u t).2.window a
            ((l.is_allowed u t).2.requests u) A t := by
          rw [sw_step_max, sw_step_window, hreq]
          refine ⟨hlen2, ?_⟩
          by_cases ht : t ≤ a + l.window
          · rcases hInv.2 with h | h
            · exact Or.inl (by rw [swPruned_countP l u t a ht]; exact h)
            · exact absurd (lt_of_lt_of_le h.1 (le_trans hτt ht)) (lt_irrefl _)
          · exact Or.inr ⟨lt_of_not_le ht, swInv_le hInv⟩
        have hih := ih (l.is_allowed u t).2 A t hMQ hchain2 hInv2
        rw [sw_step_max, sw_step_window] at hih
        rw [hhead]
        push_cast at hih ⊢
        omega
    · -- the call is for another key: the tracked key's state is untouched
      have hhead : countAdmitsInOC k a (a + l.window)
          (if (l.is_allowed u t).1 then [(u, t)] else []) = 0 := by
        split <;> simp [countAdmitsInOC, List.countP_cons, huk]
      have hInv2 : SWInv (l.is_allowed u t).2.max_requests
          (l.is_allowed u t).2.window a
          ((l.is_allowed u t).2.requests k) A t := by
        rw [sw_step_max, sw_step_window, sw_step_requests_other l u k t (Ne.symm huk)]
        exact swInv_mono hInv hτt
      have hih := ih (l.is_allowed u t).2 A t hMQ hchain2 hInv2
      rw [sw_step_max, sw_step_window] at hih
      rw [hhead]
      push_cast at hih ⊢
      omega

/-- C4: sliding bound.  For a freshly constructed `SlidingWindowRateLimiter`
with `max_requests = M ≥ 0` and window length `W`, along any trace with a
non-decreasing clock, the number of admitted calls for any key `k` whose
clock readings lie in any single time window `(a, a + W]` (the trailing-window
reading consistent with the pruning rule, which ages an entry out exactly
when `now - ts ≥ W`) never exceeds `M`. -/
theorem sw_sliding_bound (M : ℤ) (W : ℚ) (calls : List (String × ℚ)) (k : String) (a : ℚ)
    (hM : 0 ≤ M) (hmono : List.Chain' (· ≤ ·) (calls.map Prod.snd)) :
    (countAdmitsInOC k a (a + W) (swAdmits (slidingWindowInit M W) calls) : ℤ) ≤ M := by
  have hch := chain_cons_headD hmono
  have hinv : SWInv (slidingWindowInit M W).max_requests (slidingWindowInit M W).window a
      ((slidingWindowInit M W).requests k) 0 ((calls.map Prod.snd).headD 0) := by
    refine ⟨?_, Or.inl ?_⟩ <;> simp [slidingWindowInit, hM]
  have h := sw_window_aux a k calls (slidingWindowInit M W) 0 ((calls.map Prod.snd).headD 0)
    hM hch hinv
  simpa [slidingWindowInit] using h

/-- Witness for `sw_sliding_bound`: the concrete trace of C6 (`max = 5`,
`window = 60`) admits at most five calls inside the window `(0, 60]`. -/
theorem sw_sliding_bound_witness :
    (countAdmitsInOC "u" 0 (0 + 60) (swAdmits (slidingWindowInit 5 60)
      [("u", 0), ("u", 0), ("u", 0), ("u", 0), ("u", 0), ("u", 30), ("u", 61)]) : ℤ) ≤ 5 :=
  sw_sliding_bound 5 60 [("u", 0), ("u", 0), ("u", 0), ("u", 0), ("u", 0), ("u", 30), ("u", 61)]
    "u" 0 (by norm_num) (by norm_num [List.chain'_cons])

lemma floor_add_floor_le (x y : ℚ) : ⌊x⌋ + ⌊y⌋ ≤ ⌊x + y⌋ :=
  Int.le_floor.mpr (by push_cast; exact add_le_add (Int.floor_le x) (Int.floor_le y))

lemma floor_div_le_of_lt (z : ℤ) (R x : ℚ) (hR : 0 < R) (hx : x < ((z : ℚ) + 1) * R) :
    ⌊x / R⌋ ≤ z := by
  have h1 : x / R < (z : ℚ) + 1 := by rw [div_lt_iff₀ hR]; linarith
  have h2 : ⌊x / R⌋ < z + 1 := Int.floor_lt.mpr (by push_cast; linarith)
  omega

lemma no_refill_lt (R x : ℚ) (hR : 0 < R) (h : ¬ 0 < ⌊x / R⌋) : x < R := by
  by_contra hx
  push_neg at hx
  have h1 : (1 : ℚ) ≤ x / R := (le_div_iff₀ hR).mpr (by linarith)
  have h2 : (1 : ℤ) ≤ ⌊x / R⌋ := Int.le_floor.mpr (by exact_mod_cast h1)
  omega

lemma tb_branch2_le (C : ℤ) (R a b lr m : ℚ) (S : ℤ) (hR : 0 < R)
    (hb : b = a + (C : ℚ) * R) (hm : a - R < m) (hlr : lr ≤ b)
    (hS : S ≤ C + ⌊(lr - m) / R⌋) : S ≤ 2 * C := by
  have hx : lr - m < ((C : ℚ) + 1) * R := by
    rw [add_mul, one_mul]
    rw [hb] at hlr
    linarith
  have hfl := floor_div_le_of_lt C R (lr - m) hR hx
  omega

lemma tbRefilled_none (l : TokenBucketRateLimiter) (k : String) (t : ℚ)
    (hσ : l.buckets k = none) : tbRefilled l k t = ⟨l.capacity, t⟩ := by
  unfold tbRefilled
  rw [hσ]
  simp

lemma tbRefilled_some_pos (l : TokenBucketRateLimiter) (k : String) (t : ℚ) (bu : Bucket)
    (hσ : l.buckets k = some bu) (hadd : 0 < ⌊(t - bu.last_refill) / l.refill_interval⌋) :
    tbRefilled l k t =
      ⟨min l.capacity (bu.tokens + ⌊(t - bu.last_refill) / l.refill_interval⌋), t⟩ := by
  unfold tbRefilled
  rw [hσ]
  simp only [Option.getD_some]
  rw [if_pos hadd]

lemma tbRefilled_some_nonpos (l : TokenBucketRateLimiter) (k : String) (t : ℚ) (bu : Bucket)
    (hσ : l.buckets k = some bu) (hadd : ¬ 0 < ⌊(t - bu.last_refill) / l.refill_interval⌋) :
    tbRefilled l k t = bu := by
  unfold tbRefilled
  rw [hσ]
  simp only [Option.getD_some]
  rw [if_neg hadd]

lemma tbInv_le {C : ℤ} {R a b : ℚ} {σ : Option Bucket} {A : ℕ} {τ : ℚ}
    (h : TBInv C R a b σ A τ) : (A : ℤ) ≤ 2 * C := by
  unfold TBInv at h
  exact h.2.1

lemma tbInv_mono {C : ℤ} {R a b : ℚ} {σ : Option Bucket} {A : ℕ} {τ τQ : ℚ}
    (h : TBInv C R a b σ A τ) (hτ : τ ≤ τQ) : TBInv C R a b σ A τQ := by
  unfold TBInv at h ⊢
  obtain ⟨h1, h2, h3⟩ := h
  refine ⟨fun hA => le_trans (h1 hA) hτ, h2, ?_⟩
  cases σ with
  | none => exact h3
  | some bu =>
    rcases h3 with h | h | h
    · exact Or.inl ⟨h.1, h.2.1, h.2.2.1, le_trans h.2.2.2.1 hτ, h.2.2.2.2⟩
    · exact Or.inr (Or.inl ⟨h.1, h.2.1, h.2.2.1, h.2.2.2.1, le_trans h.2.2.2.2.1 hτ, h.2.2.2.2.2⟩)
    · exact Or.inr (Or.inr (lt_of_lt_of_le h hτ))

lemma tb_le_two_of_b2 (C : ℤ) (R a b t : ℚ) (bu2 : Bucket) (A2 : ℕ)
    (hR : 0 < R) (hb : b = a + (C : ℚ) * R)
    (h : a ≤ bu2.last_refill ∧ bu2.last_refill ≤ b ∧ 0 ≤ bu2.tokens ∧ bu2.tokens ≤ C ∧
      bu2.last_refill ≤ t ∧ ∃ m : ℚ, a - R < m ∧ m ≤ bu2.last_refill ∧
      (A2 : ℤ) + bu2.tokens ≤ C + ⌊(bu2.last_refill - m) / R⌋) :
    (A2 : ℤ) ≤ 2 * C := by
  obtain ⟨_, hlrb, ht0, _, _, m, hm1, _, hm3⟩ := h
  have := tb_branch2_le C R a b bu2.last_refill m ((A2 : ℤ) + bu2.tokens) hR hb hm1 hlrb hm3
  omega

lemma tbInv_step (l : TokenBucketRateLimiter) (a b : ℚ) (k : String)
    (hC : 0 ≤ l.capacity) (hR : 0 < l.refill_interval)
    (hb : b = a + (l.capacity : ℚ) * l.refill_interval)
    (A : ℕ) (τ t : ℚ) (hτ : τ ≤ t)
    (hInv : TBInv l.capacity l.refill_interval a b (l.buckets k) A τ) :
    TBInv l.capacity l.refill_interval a b ((l.is_allowed k t).2.buckets k)
      (A + if (l.is_allowed k t).1 = true ∧ a ≤ t ∧ t ≤ b then 1 else 0) t := by
  unfold TBInv at hInv ⊢
  obtain ⟨hA1, hA2, hbr⟩ := hInv
  rw [tb_step_buckets_self, tb_step_fst]
  cases hσ : l.buckets k with
  | none =>
    have hA0 : A = 0 := by rw [hσ] at hbr; exact hbr
    subst hA0
    rw [tbRefilled_none l k t hσ]
    dsimp only
    by_cases hcap : 0 < l.capacity
    · rw [if_pos hcap]
      by_cases hta : a ≤ t
      · by_cases htb : t ≤ b
        · rw [if_pos (show decide (0 < l.capacity) = true ∧ a ≤ t ∧ t ≤ b from
            ⟨decide_eq_true hcap, hta, htb⟩)]
          have h0 : ⌊(t - t) / l.refill_interval⌋ = 0 := by simp
          have hD : a ≤ t ∧ t ≤ b ∧ (0 : ℤ) ≤ l.capacity - 1 ∧ l.capacity - 1 ≤ l.capacity ∧
              t ≤ t ∧ ∃ m : ℚ, a - l.refill_interval < m ∧ m ≤ t ∧
              ((0 + 1 : ℕ) : ℤ) + (l.capacity - 1) ≤
                l.capacity + ⌊(t - m) / l.refill_interval⌋ :=
            ⟨hta, htb, by omega, by omega, le_refl t, t, by linarith, le_refl t,
              by rw [h0]; push_cast; omega⟩
          exact ⟨fun _ => hta,
            tb_le_two_of_b2 l.capacity l.refill_interval a b t ⟨l.capacity - 1, t⟩ (0 + 1)
              hR hb hD,
            Or.inr (Or.inl hD)⟩
        · rw [if_neg (show ¬(decide (0 < l.capacity) = true ∧ a ≤ t ∧ t ≤ b) from
            fun hP => htb hP.2.2)]
          exact ⟨fun hh => absurd hh (by omega), by push_cast; omega,
            Or.inr (Or.inr (lt_of_not_le htb))⟩
      · rw [if_neg (show ¬(decide (0 < l.capacity) = true ∧ a ≤ t ∧ t ≤ b) from
          fun hP => hta hP.2.1)]
        exact ⟨fun hh => absurd hh (by omega), by push_cast; omega,
          Or.inl ⟨lt_of_not_le hta, by dsimp only; omega, by dsimp only; omega, le_refl t,
            by push_cast; omega, fun hh => absurd hh (by omega)⟩⟩
    · rw [if_neg hcap]
      rw [if_neg (show ¬(decide (0 < l.capacity) = true ∧ a ≤ t ∧ t ≤ b) from
        fun hP => hcap (of_decide_eq_true hP.1))]
      by_cases hta : a ≤ t
      · by_cases htb : t ≤ b
        · have h0 : ⌊(t - t) / l.refill_interval⌋ = 0 := by simp
          have hD : a ≤ t ∧ t ≤ b ∧ (0 : ℤ) ≤ l.capacity ∧ l.capacity ≤ l.capacity ∧
              t ≤ t ∧ ∃ m : ℚ, a - l.refill_interval < m ∧ m ≤ t ∧
              ((0 + 0 : ℕ) : ℤ) + l.capacity ≤ l.capacity + ⌊(t - m) / l.refill_interval⌋ :=
            ⟨hta, htb, hC, le_refl _, le_refl t, t, by linarith, le_refl t,
              by rw [h0]; push_cast; omega⟩
          exact ⟨fun _ => hta,
            tb_le_two_of_b2 l.capacity l.refill_interval a b t ⟨l.capacity, t⟩ (0 + 0)
              hR hb hD,
            Or.inr (Or.inl hD)⟩
        · exact ⟨fun _ => hta, by push_cast; omega, Or.inr (Or.inr (lt_of_not_le htb))⟩
      · exact ⟨fun hh => absurd hh (by omega), by push_cast; omega,
          Or.inl ⟨lt_of_not_le hta, hC, le_refl _, le_refl t, by push_cast; omega,
            fun hh => absurd hh (by omega)⟩⟩
  | some bu =>
    rw [hσ] at hbr
    have hbrQ : (bu.last_refill < a ∧ 0 ≤ bu.tokens ∧ bu.tokens ≤ l.capacity ∧
        bu.last_refill ≤ τ ∧ (A : ℤ) + bu.tokens ≤ l.capacity ∧
        (1 ≤ A → a < bu.last_refill + l.refill_interval)) ∨
        (a ≤ bu.last_refill ∧ bu.last_refill ≤ b ∧ 0 ≤ bu.tokens ∧ bu.tokens ≤ l.capacity ∧
        bu.last_refill ≤ τ ∧ ∃ m : ℚ, a - l.refill_interval < m ∧ m ≤ bu.last_refill ∧
        (A : ℤ) + bu.tokens ≤ l.capacity + ⌊(bu.last_refill - m) / l.refill_interval⌋) ∨
        b < τ := hbr
    clear hbr
    rcases hbrQ with h1 | h2 | hlate
    · -- stored bucket still has its last refill before the window start
      obtain ⟨hlra, htok0, htokC, hlrτ, hsum, hclause⟩ := h1
      by_cases hadd : 0 < ⌊(t - bu.last_refill) / l.refill_interval⌋
      · rw [tbRefilled_some_pos l k t bu hσ hadd]
        dsimp only
        set Qtok := min l.capacity
          (bu.tokens + ⌊(t - bu.last_refill) / l.refill_interval⌋) with hQdef
        have hmin1 : Qtok ≤ l.capacity := by rw [hQdef]; exact min_le_left _ _
        have hmin2 : Qtok ≤ bu.tokens + ⌊(t - bu.last_refill) / l.refill_interval⌋ := by
          rw [hQdef]; exact min_le_right _ _
        have hmin0 : 0 ≤ Qtok := by rw [hQdef]; exact le_min hC (by omega)
        by_cases hta : a ≤ t
        · by_cases htb : t ≤ b
          · by_cases hQt : 0 < Qtok
            · rw [if_pos hQt]
              rw [if_pos (show decide (0 < Qtok) = true ∧ a ≤ t ∧ t ≤ b from
                ⟨decide_eq_true hQt, hta, htb⟩)]
              rcases Nat.eq_zero_or_pos A with hA0 | hApos
              · subst hA0
                have h0 : ⌊(t - t) / l.refill_interval⌋ = 0 := by simp
                have hD : a ≤ t ∧ t ≤ b ∧ (0 : ℤ) ≤ Qtok - 1 ∧ Qtok - 1 ≤ l.capacity ∧
                    t ≤ t ∧ ∃ m : ℚ, a - l.refill_interval < m ∧ m ≤ t ∧
                    ((0 + 1 : ℕ) : ℤ) + (Qtok - 1) ≤
                      l.capacity + ⌊(t - m) / l.refill_interval⌋ :=
                  ⟨hta, htb, by omega, by omega, le_refl t, t, by linarith, le_refl t,
                    by rw [h0]; push_cast; omega⟩
                exact ⟨fun _ => hta,
                  tb_le_two_of_b2 l.capacity l.refill_interval a b t ⟨Qtok - 1, t⟩ (0 + 1)
                    hR hb hD,
                  Or.inr (Or.inl hD)⟩
              · have hcl := hclause hApos
                have hD : a ≤ t ∧ t ≤ b ∧ (0 : ℤ) ≤ Qtok - 1 ∧ Qtok - 1 ≤ l.capacity ∧
                    t ≤ t ∧ ∃ m : ℚ, a - l.refill_interval < m ∧ m ≤ t ∧
                    ((A + 1 : ℕ) : ℤ) + (Qtok - 1) ≤
                      l.capacity + ⌊(t - m) / l.refill_interval⌋ :=
                  ⟨hta, htb, by omega, by omega, le_refl t, bu.last_refill, by linarith,
                    le_trans hlrτ hτ, by push_cast; omega⟩
                exact ⟨fun _ => hta,
                  tb_le_two_of_b2 l.capacity l.refill_interval a b t ⟨Qtok - 1, t⟩ (A + 1)
                    hR hb hD,
                  Or.inr (Or.inl hD)⟩
            · rw [if_neg hQt]
              rw [if_neg (show ¬(decide (0 < Qtok) = true ∧ a ≤ t ∧ t ≤ b) from
                fun hP => hQt (of_decide_eq_true hP.1))]
              rcases Nat.eq_zero_or_pos A with hA0 | hApos
              · subst hA0
                have h0 : ⌊(t - t) / l.refill_interval⌋ = 0 := by simp
                have hD : a ≤ t ∧ t ≤ b ∧ (0 : ℤ) ≤ Qtok ∧ Qtok ≤ l.capacity ∧
                    t ≤ t ∧ ∃ m : ℚ, a - l.refill_interval < m ∧ m ≤ t ∧
                    ((0 + 0 : ℕ) : ℤ) + Qtok ≤ l.capacity + ⌊(t - m) / l.refill_interval⌋ :=
                  ⟨hta, htb, hmin0, hmin1, le_refl t, t, by linarith, le_refl t,
                    by rw [h0]; push_cast; omega⟩
                exact ⟨fun _ => hta,
                  tb_le_two_of_b2 l.capacity l.refill_interval a b t ⟨Qtok, t⟩ (0 + 0)
                    hR hb hD,
                  Or.inr (Or.inl hD)⟩
              · have hcl := hclause hApos
                have hD : a ≤ t ∧ t ≤ b ∧ (0 : ℤ) ≤ Qtok ∧ Qtok ≤ l.capacity ∧
                    t ≤ t ∧ ∃ m : ℚ, a - l.refill_interval < m ∧ m ≤ t ∧
                    ((A + 0 : ℕ) : ℤ) + Qtok ≤ l.capacity + ⌊(t - m) / l.refill_interval⌋ :=
                  ⟨hta, htb, hmin0, hmin1, le_refl t, bu.last_refill, by linarith,
                    le_trans hlrτ hτ, by push_cast; omega⟩
                exact ⟨fun _ => hta,
                  tb_le_two_of_b2 l.capacity l.refill_interval a b t ⟨Qtok, t⟩ (A + 0)
                    hR hb hD,
                  Or.inr (Or.inl hD)⟩
          · rw [if_neg (show ¬(decide (0 < Qtok) = true ∧ a ≤ t ∧ t ≤ b) from
              fun hP => htb hP.2.2)]
            exact ⟨fun hh => le_trans (hA1 (by omega)) hτ, by push_cast; omega,
              Or.inr (Or.inr (lt_of_not_le htb))⟩
        · have hA0 : A = 0 := by
            rcases Nat.eq_zero_or_pos A with h | h
            · exact h
            · exact absurd (le_trans (hA1 h) hτ) hta
          subst hA0
          rw [if_neg (show ¬(decide (0 < Qtok) = true ∧ a ≤ t ∧ t ≤ b) from
            fun hP => hta hP.2.1)]
          by_cases hQt : 0 < Qtok
          · rw [if_pos hQt]
            exact ⟨fun hh => absurd hh (by omega), by push_cast; omega,
              Or.inl ⟨lt_of_not_le hta, by dsimp only; omega, by dsimp only; omega, le_refl t,
                by push_cast; omega, fun hh => absurd hh (by omega)⟩⟩
          · rw [if_neg hQt]
            exact ⟨fun hh => absurd hh (by omega), by push_cast; omega,
              Or.inl ⟨lt_of_not_le hta, hmin0, hmin1, le_refl t, by push_cast; omega,
                fun hh => absurd hh (by omega)⟩⟩
      · rw [tbRefilled_some_nonpos l k t bu hσ hadd]
        have hnr : t - bu.last_refill < l.refill_interval :=
          no_refill_lt l.refill_interval (t - bu.last_refill) hR hadd
        by_cases hQt : 0 < bu.tokens
        · rw [if_pos hQt]
          by_cases hw : a ≤ t ∧ t ≤ b
          · rw [if_pos (show decide (0 < bu.tokens) = true ∧ a ≤ t ∧ t ≤ b from
              ⟨decide_eq_true hQt, hw.1, hw.2⟩)]
            exact ⟨fun _ => hw.1, by push_cast; omega,
              Or.inl ⟨hlra, by dsimp only; omega, by dsimp only; omega, le_trans hlrτ hτ,
                by push_cast; omega, fun _ => by linarith [hw.1]⟩⟩
          · rw [if_neg (show ¬(decide (0 < bu.tokens) = true ∧ a ≤ t ∧ t ≤ b) from
              fun hP => hw ⟨hP.2.1, hP.2.2⟩)]
            exact ⟨fun hh => le_trans (hA1 (by omega)) hτ, by push_cast; omega,
              Or.inl ⟨hlra, by dsimp only; omega, by dsimp only; omega, le_trans hlrτ hτ,
                by push_cast; omega, fun hh => hclause (by omega)⟩⟩
        · rw [if_neg hQt]
          rw [if_neg (show ¬(decide (0 < bu.tokens) = true ∧ a ≤ t ∧ t ≤ b) from
            fun hP => hQt (of_decide_eq_true hP.1))]
          exact ⟨fun hh => le_trans (hA1 (by omega)) hτ, by push_cast; omega,
            Or.inl ⟨hlra, htok0, htokC, le_trans hlrτ hτ, by push_cast; omega,
              fun hh => hclause (by omega)⟩⟩
    · -- stored bucket already refilled inside the window
      obtain ⟨h2a, h2b, h2t0, h2tC, h2τ, m, hm1, hm2, hm3⟩ := h2
      have hlrt : bu.last_refill ≤ t := le_trans h2τ hτ
      have hta : a ≤ t := le_trans h2a hlrt
      have hmt : m ≤ t := le_trans hm2 hlrt
      by_cases hadd : 0 < ⌊(t - bu.last_refill) / l.refill_interval⌋
      · rw [tbRefilled_some_pos l k t bu hσ hadd]
        dsimp only
        set Qtok := min l.capacity
          (bu.tokens + ⌊(t - bu.last_refill) / l.refill_interval⌋) with hQdef
        have hmin1 : Qtok ≤ l.capacity := by rw [hQdef]; exact min_le_left _ _
        have hmin2 : Qtok ≤ bu.tokens + ⌊(t - bu.last_refill) / l.refill_interval⌋ := by
          rw [hQdef]; exact min_le_right _ _
        have hmin0 : 0 ≤ Qtok := by rw [hQdef]; exact le_min hC (by omega)
        have hsup : ⌊(bu.last_refill - m) / l.refill_interval⌋ +
            ⌊(t - bu.last_refill) / l.refill_interval⌋ ≤ ⌊(t - m) / l.refill_interval⌋ := by
          have h := floor_add_floor_le ((bu.last_refill - m) / l.refill_interval)
            ((t - bu.last_refill) / l.refill_interval)
          rw [div_add_div_same,
            show bu.last_refill - m + (t - bu.last_refill) = t - m by ring] at h
          exact h
        by_cases htb : t ≤ b
        · by_cases hQt : 0 < Qtok
          · rw [if_pos hQt]
            rw [if_pos (show decide (0 < Qtok) = true ∧ a ≤ t ∧ t ≤ b from
              ⟨decide_eq_true hQt, hta, htb⟩)]
            have hD : a ≤ t ∧ t ≤ b ∧ (0 : ℤ) ≤ Qtok - 1 ∧ Qtok - 1 ≤ l.capacity ∧
                t ≤ t ∧ ∃ mQ : ℚ, a - l.refill_interval < mQ ∧ mQ ≤ t ∧
                ((A + 1 : ℕ) : ℤ) + (Qtok - 1) ≤
                  l.capacity + ⌊(t - mQ) / l.refill_interval⌋ :=
              ⟨hta, htb, by omega, by omega, le_refl t, m, hm1, hmt, by push_cast; omega⟩
            exact ⟨fun _ => hta,
              tb_le_two_of_b2 l.capacity l.refill_interval a b t ⟨Qtok - 1, t⟩ (A + 1)
                hR hb hD,
              Or.inr (Or.inl hD)⟩
          · rw [if_neg hQt]
            rw [if_neg (show ¬(decide (0 < Qtok) = true ∧ a ≤ t ∧ t ≤ b) from
              fun hP => hQt (of_decide_eq_true hP.1))]
            have hD : a ≤ t ∧ t ≤ b ∧ (0 : ℤ) ≤ Qtok ∧ Qtok ≤ l.capacity ∧
                t ≤ t ∧ ∃ mQ : ℚ, a - l.refill_interval < mQ ∧ mQ ≤ t ∧
                ((A + 0 : ℕ) : ℤ) + Qtok ≤ l.capacity + ⌊(t - mQ) / l.refill_interval⌋ :=
              ⟨hta, htb, hmin0, hmin1, le_refl t, m, hm1, hmt, by push_cast; omega⟩
            exact ⟨fun _ => hta,
              tb_le_two_of_b2 l.capacity l.refill_interval a b t ⟨Qtok, t⟩ (A + 0)
                hR hb hD,
              Or.inr (Or.inl hD)⟩
        · rw [if_neg (show ¬(decide (0 < Qtok) = true ∧ a ≤ t ∧ t ≤ b) from
            fun hP => htb hP.2.2)]
          exact ⟨fun hh => le_trans (hA1 (by omega)) hτ, by push_cast; omega,
            Or.inr (Or.inr (lt_of_not_le htb))⟩
      · rw [tbRefilled_some_nonpos l k t bu hσ hadd]
        by_cases hQt : 0 < bu.tokens
        · rw [if_pos hQt]
          by_cases htb : t ≤ b
          · rw [if_pos (show decide (0 < bu.tokens) = true ∧ a ≤ t ∧ t ≤ b from
              ⟨decide_eq_true hQt, hta, htb⟩)]
            have hD : a ≤ bu.last_refill ∧ bu.last_refill ≤ b ∧ (0 : ℤ) ≤ bu.tokens - 1 ∧
                bu.tokens - 1 ≤ l.capacity ∧ bu.last_refill ≤ t ∧
                ∃ mQ : ℚ, a - l.refill_interval < mQ ∧ mQ ≤ bu.last_refill ∧
                ((A + 1 : ℕ) : ℤ) + (bu.tokens - 1) ≤
                  l.capacity + ⌊(bu.last_refill - mQ) / l.refill_interval⌋ :=
              ⟨h2a, h2b, by omega, by omega, hlrt, m, hm1, hm2, by push_cast; omega⟩
            exact ⟨fun _ => hta,
              tb_le_two_of_b2 l.capacity l.refill_interval a b t
                ⟨bu.tokens - 1, bu.last_refill⟩ (A + 1) hR hb hD,
              Or.inr (Or.inl hD)⟩
          · rw [if_neg (show ¬(decide (0 < bu.tokens) = true ∧ a ≤ t ∧ t ≤ b) from
              fun hP => htb hP.2.2)]
            exact ⟨fun hh => le_trans (hA1 (by omega)) hτ, by push_cast; omega,
              Or.inr (Or.inl ⟨h2a, h2b, by dsimp only; omega, by dsimp only; omega, hlrt,
                m, hm1, hm2, by push_cast; omega⟩)⟩
        · rw [if_neg hQt]
          rw [if_neg (show ¬(decide (0 < bu.tokens) = true ∧ a ≤ t ∧ t ≤ b) from
            fun hP => hQt (of_decide_eq_true hP.1))]
          exact ⟨fun hh => le_trans (hA1 (by omega)) hτ, by push_cast; omega,
            Or.inr (Or.inl ⟨h2a, h2b, h2t0, h2tC, hlrt, m, hm1, hm2, by push_cast; omega⟩)⟩
    · -- the clock has already passed the window end
      have hbt : b < t := lt_of_lt_of_le hlate hτ
      rw [if_neg (show ¬(decide (0 < (tbRefilled l k t).tokens) = true ∧ a ≤ t ∧ t ≤ b) from
        fun hP => absurd hP.2.2 (not_le.mpr hbt))]
      exact ⟨fun hh => le_trans (hA1 (by omega)) hτ, by push_cast; omega,
        Or.inr (Or.inr hbt)⟩

lemma countIn_append (k : String) (lo hi : ℚ) (x y : List (String × ℚ)) :
    countAdmitsIn k lo hi (x ++ y) = countAdmitsIn k lo hi x + countAdmitsIn k lo hi y := by
  unfold countAdmitsIn
  exact List.countP_append _ x y

lemma tbAdmits_cons (l : TokenBucketRateLimiter) (u : String) (t : ℚ)
    (rest : List (String × ℚ)) :
    tbAdmits l ((u, t) :: rest) =
      (if (l.is_allowed u t).1 then [(u, t)] else []) ++ tbAdmits (l.is_allowed u t).2 rest := rfl

lemma tb_window_aux (a b : ℚ) (k : String) :
    ∀ (calls : List (String × ℚ)) (l : TokenBucketRateLimiter) (A : ℕ) (τ : ℚ),
      0 ≤ l.capacity → 0 < l.refill_interval →
      b = a + (l.capacity : ℚ) * l.refill_interval →
      List.Chain' (· ≤ ·) (τ :: calls.map Prod.snd) →
      TBInv l.capacity l.refill_interval a b (l.buckets k) A τ →
      (A : ℤ) + countAdmitsIn k a b (tbAdmits l calls) ≤ 2 * l.capacity := by
  intro calls
  induction calls with
  | nil =>
    intro l A τ _ _ _ _ hInv
    simpa [tbAdmits, countAdmitsIn] using tbInv_le hInv
  | cons c rest ih =>
    obtain ⟨u, t⟩ := c
    intro l A τ hC hR hb hchain hInv
    simp only [List.map_cons, List.chain'_cons] at hchain
    obtain ⟨hτt, hchain2⟩ := hchain
    rw [tbAdmits_cons, countIn_append]
    have hCQ : 0 ≤ (l.is_allowed u t).2.capacity := hC
    have hRQ : 0 < (l.is_allowed u t).2.refill_interval := hR
    have hbQ : b = a +
        ((l.is_allowed u t).2.capacity : ℚ) * (l.is_allowed u t).2.refill_interval := hb
    by_cases huk : u = k
    · subst huk
      have hstep := tbInv_step l a b u hC hR hb A τ t hτt hInv
      have hhead : countAdmitsIn u a b (if (l.is_allowed u t).1 then [(u, t)] else []) =
          if (l.is_allowed u t).1 = true ∧ a ≤ t ∧ t ≤ b then 1 else 0 := by
        by_cases hr : (l.is_allowed u t).1 = true
        · rw [hr, if_pos rfl]
          by_cases hw : a ≤ t ∧ t ≤ b
          · rw [if_pos ⟨rfl, hw.1, hw.2⟩]
            simp [countAdmitsIn, List.countP_cons, hw.1, hw.2]
          · rw [if_neg (fun hP => hw ⟨hP.2.1, hP.2.2⟩)]
            rcases not_and_or.mp hw with h | h <;>
              simp [countAdmitsIn, List.countP_cons, h]
        · have hrf : (l.is_allowed u t).1 = false := by
            cases hres : (l.is_allowed u t).1 with
            | false => rfl
            | true => exact absurd hres hr
          rw [hrf, if_neg (by simp), if_neg (fun hP => Bool.false_ne_true hP.1)]
          simp [countAdmitsIn]
      rw [hhead]
      have hih := ih (l.is_allowed u t).2
        (A + if (l.is_allowed u t).1 = true ∧ a ≤ t ∧ t ≤ b then 1 else 0) t
        hCQ hRQ hbQ hchain2 hstep
      rw [tb_step_capacity] at hih
      by_cases hP : (l.is_allowed u t).1 = true ∧ a ≤ t ∧ t ≤ b
      · rw [if_pos hP] at hih ⊢
        push_cast at hih ⊢
        omega
      · rw [if_neg hP] at hih ⊢
        push_cast at hih ⊢
        omega
    · have hhead : countAdmitsIn k a b (if (l.is_allowed u t).1 then [(u, t)] else []) = 0 := by
        split <;> simp [countAdmitsIn, List.countP_cons, huk]
      have hInv2 : TBInv (l.is_allowed u t).2.capacity (l.is_allowed u t).2.refill_interval a b
          ((l.is_allowed u t).2.buckets k) A t := by
        rw [tb_step_capacity, tb_step_refill_interval,
          tb_step_buckets_other l u k t (Ne.symm huk)]
        exact tbInv_mono hInv hτt
      have hih := ih (l.is_allowed u t).2 A t hCQ hRQ hbQ hchain2 hInv2
      rw [tb_step_capacity] at hih
      rw [hhead]
      push_cast at hih ⊢
      omega

/-- C1, amended.  For a freshly constructed `TokenBucketRateLimiter` with
capacity `C ≥ 0` and refill interval `R > 0`, along any trace with a
non-decreasing clock, the number of admitted calls for any key whose clock
readings lie within any single trailing window `[a, a + C * R]` of length
`C * R` never exceeds `2 * C` (twice the capacity: an initial burst of up to
`C` stored tokens plus at most `C` tokens minted during the window; the
original bound of `C` is refuted by a concrete trace above). -/
theorem tb_bucket_bound_two_capacity (C : ℤ) (R : ℚ) (calls : List (String × ℚ)) (k : String)
    (a : ℚ) (hC : 0 ≤ C) (hR : 0 < R)
    (hmono : List.Chain' (· ≤ ·) (calls.map Prod.snd)) :
    (countAdmitsIn k a (a + (C : ℚ) * R) (tbAdmits (tokenBucketInit C R) calls) : ℤ) ≤
      2 * C := by
  have hch := chain_cons_headD hmono
  have hinv : TBInv C R a
      (a + (C : ℚ) * R) ((tokenBucketInit C R).buckets k) 0
      ((calls.map Prod.snd).headD 0) := by
    unfold TBInv
    exact ⟨fun h => absurd h (by omega), by push_cast; omega, rfl⟩
  have h := tb_window_aux a (a + (C : ℚ) * R) k calls (tokenBucketInit C R) 0
    ((calls.map Prod.snd).headD 0) hC hR rfl hch hinv
  simpa using h

/-- Witness for `tb_bucket_bound_two_capacity`: the concrete trace of the C1
counterexample (capacity `3`, interval `20`) admits at most six calls inside
the window `[0, 60]`. -/
theorem tb_bucket_bound_two_capacity_witness :
    (countAdmitsIn "u" 0 (0 + ((3 : ℤ) : ℚ) * 20) (tbAdmits (tokenBucketInit 3 20)
      [("u", 0), ("u", 0), ("u", 0), ("u", 20), ("u", 40)]) : ℤ) ≤ 2 * 3 :=
  tb_bucket_bound_two_capacity 3 20 [("u", 0), ("u", 0), ("u", 0), ("u", 20), ("u", 40)]
    "u" 0 (by norm_num) (by norm_num) (by norm_num [List.chain'_cons])
